import Mathlib

/-!
Verification of the Kattis plagiarism-report scripts (`clean.py`, `get_file.py`).

The development shallowly embeds the data model and the three processing
stages of `clean.py` — the standings classification loop (lines 187-203),
the submission scan loop (lines 218-262) and the reconciler (lines 268-280)
— together with the timestamp parsing (lines 164-181 and 235-240) and the
target-path computation of `get_file.py` (lines 9-15).  Machine details:
scraped HTML rows become records of the fields the scripts read; Python
`datetime` values reached by the scan are abstracted to `Int` under their
total order; strings are Lean `String`s (lists of characters, as in
Python's sequence-of-code-points model).
-/

/-! ## Character-list utilities

`splitOnChar` models Python's `str.split(sep)` for a one-character
separator, and `unsplitChar` is the corresponding join; both work on the
character list underlying a string. -/

/-- Split a character list at every occurrence of `c`; models Python's
`s.split(c)` (always returns at least one part, empty parts kept). -/
def splitOnChar (c : Char) : List Char → List (List Char)
  | [] => [[]]
  | x :: xs =>
    match splitOnChar c xs with
    | [] => [[]]
    | p :: ps => if x = c then [] :: p :: ps else (x :: p) :: ps

/-- Rejoin the parts produced by `splitOnChar`, re-inserting `c`. -/
def unsplitChar (c : Char) : List (List Char) → List Char
  | [] => []
  | [p] => p
  | p :: ps => p ++ c :: unsplitChar c (ps)

/-- Python `str.strip()`: drop whitespace from both ends. -/
def pyStrip (s : String) : String :=
  String.mk (((s.data.dropWhile Char.isWhitespace).reverse.dropWhile Char.isWhitespace).reverse)

/-! ## Timestamp parsing (`clean.py` lines 164-181 and 235-240)

`clean.py` parses the contest start/end with
`datetime.strptime(text, "%Y-%m-%d %H:%M")`, falling back on
`"%H:%M"` plus today's date, and parses submission-row timestamps with
`"%Y-%m-%d %H:%M:%S"`, falling back on `"%H:%M:%S"` plus today's date.
We model `strptime` for exactly these four formats.  A numeric field
accepts one to `maxLen` digits; field ranges follow CPython (`%S` admits
leap seconds up to 61; the per-month day-count validation that CPython's
`datetime` constructor adds on top of the 1..31 range is not modelled —
no claim depends on it). -/

/-- A parsed timestamp: the six calendar fields `strptime` produces. -/
structure PyDateTime where
  year : Nat
  month : Nat
  day : Nat
  hour : Nat
  minute : Nat
  second : Nat
deriving DecidableEq, Repr

/-- Numeric value of a digit list (no validation). -/
def digitsVal (cs : List Char) : Nat :=
  cs.foldl (fun n c => 10 * n + (c.toNat - 48)) 0

/-- A `strptime` numeric field: one to `maxLen` digits. -/
def parseField (maxLen : Nat) (cs : List Char) : Option Nat :=
  if cs ≠ [] ∧ cs.all Char.isDigit ∧ cs.length ≤ maxLen then some (digitsVal cs) else none

/-- Body of `strptime` for format `"%H:%M"`. -/
def parseHM (cs : List Char) : Option (Nat × Nat) :=
  match splitOnChar ':' cs with
  | [h, m] => do
    let hv ← parseField 2 h
    let mv ← parseField 2 m
    if hv ≤ 23 ∧ mv ≤ 59 then pure (hv, mv) else none
  | _ => none

/-- Body of `strptime` for format `"%H:%M:%S"`. -/
def parseHMS (cs : List Char) : Option (Nat × Nat × Nat) :=
  match splitOnChar ':' cs with
  | [h, m, s] => do
    let hv ← parseField 2 h
    let mv ← parseField 2 m
    let sv ← parseField 2 s
    if hv ≤ 23 ∧ mv ≤ 59 ∧ sv ≤ 61 then pure (hv, mv, sv) else none
  | _ => none

/-- Body of `strptime` for format `"%Y-%m-%d"`. -/
def parseDate (cs : List Char) : Option (Nat × Nat × Nat) :=
  match splitOnChar '-' cs with
  | [y, m, d] => do
    let yv ← parseField 4 y
    let mv ← parseField 2 m
    let dv ← parseField 2 d
    if 1 ≤ yv ∧ 1 ≤ mv ∧ mv ≤ 12 ∧ 1 ≤ dv ∧ dv ≤ 31 then pure (yv, mv, dv) else none
  | _ => none

/-- The `strptime` for the full minute format `"%Y-%m-%d %H:%M"` (`DT_FORMAT`,
`clean.py` line 100). -/
def strptimeFullMinute (cs : List Char) : Option PyDateTime :=
  match splitOnChar ' ' cs with
  | [d, t] => do
    let (yv, mv, dv) ← parseDate d
    let (hv, miv) ← parseHM t
    pure ⟨yv, mv, dv, hv, miv, 0⟩
  | _ => none

/-- The `strptime` for the full second format `"%Y-%m-%d %H:%M:%S"`
(`clean.py` line 237). -/
def strptimeFullSecond (cs : List Char) : Option PyDateTime :=
  match splitOnChar ' ' cs with
  | [d, t] => do
    let (yv, mv, dv) ← parseDate d
    let (hv, miv, sv) ← parseHMS t
    pure ⟨yv, mv, dv, hv, miv, sv⟩
  | _ => none

/-- Contest start/end parsing, `clean.py` lines 164-181: try
`"%Y-%m-%d %H:%M"`; on `ValueError` parse `"%H:%M"` and replace the date
with today's (`today` is `(year, month, day)`). -/
def contestTimeParse (today : Nat × Nat × Nat) (s : String) : Option PyDateTime :=
  match strptimeFullMinute s.data with
  | some dt => some dt
  | none =>
    match parseHM s.data with
    | some (hv, mv) => some ⟨today.1, today.2.1, today.2.2, hv, mv, 0⟩
    | none => none

/-- Submission-row timestamp parsing, `clean.py` lines 235-240: try
`"%Y-%m-%d %H:%M:%S"`; on `ValueError` parse `"%H:%M:%S"` and replace the
date with today's. -/
def submitTimeParse (today : Nat × Nat × Nat) (s : String) : Option PyDateTime :=
  match strptimeFullSecond s.data with
  | some dt => some dt
  | none =>
    match parseHMS s.data with
    | some (hv, mv, sv) => some ⟨today.1, today.2.1, today.2.2, hv, mv, sv⟩
    | none => none

/-! ## Standings parser (`clean.py` lines 187-203)

Each student row yields a username (line 192) and the CSS class list of
the selected problem cell (line 193); classification branches on that
class list exactly as lines 194-203 do, with the final `else` branch
(`raise RuntimeError`) modelled as `none`. -/

/-- One row of the standings table: the username text and the class
attribute of the selected problem cell (`None` when absent). -/
structure SRow where
  username : String
  solveClass : Option (List String)
deriving DecidableEq, Repr

/-- Classify one student row into the running `(accepted, attempted,
no_submission)` triple; `none` models the `raise RuntimeError` of
line 203. -/
def classifyRow (s : Finset String × Finset String × Finset String) (row : SRow) :
    Option (Finset String × Finset String × Finset String) :=
  match row.solveClass with
  | none => some (s.1, s.2.1, insert row.username s.2.2)
  | some cls =>
    if "attempted" ∈ cls then some (s.1, insert row.username s.2.1, s.2.2)
    else if "solved" ∈ cls then some (insert row.username s.1, s.2.1, s.2.2)
    else if "first" ∈ cls then some (insert row.username s.1, s.2.1, s.2.2)
    else none

/-- The standings classification loop of lines 191-203. -/
def classifyRows (s : Finset String × Finset String × Finset String) :
    List SRow → Option (Finset String × Finset String × Finset String)
  | [] => some s
  | row :: rest =>
    match classifyRow s row with
    | none => none
    | some s2 => classifyRows s2 rest

/-- The set of usernames read from the student rows. -/
def rosterOf (rows : List SRow) : Finset String :=
  rows.foldr (fun r s => insert r.username s) ∅

/-! ## Submission scan (`clean.py` lines 206-262)

A submission row carries exactly the fields the loop body reads: the
`testcases-row` class marker (line 232), the `data-submission-id`
attribute (line 234), the parsed timestamp (lines 235-240, abstracted to
`Int` under the total order on datetimes), the author link text (`none`
when the `AttributeError` of line 247 fires), and the two plagiarism
markers (lines 256, 260).  The row also carries its status text, which is
present in the feed but never read by the loop — the `status=AC` filter
is only a request parameter (lines 221, 225). -/

/-- One row of the submissions feed. -/
structure Row where
  testcases : Bool
  id : String
  time : Int
  author : Option String
  status : String
  redFlag : Bool
  yellowFlag : Bool
deriving DecidableEq, Repr

/-- The fixed inputs of the scan: the contest window and the three
primary sets produced by the standings parser. -/
structure ScanCtx where
  startT : Int
  endT : Int
  accepted : Finset String
  attempted : Finset String
  no_submission : Finset String
deriving DecidableEq

/-- The combined roster `student_list`, `clean.py` line 206. -/
def ScanCtx.student_list (c : ScanCtx) : Finset String :=
  c.accepted ∪ c.attempted ∪ c.no_submission

/-- The aggregates the scan populates (`clean.py` lines 209-212).
`submission_dict` is an insertion-ordered association list, the model of
the Python dict (only lookup and the value multiset are ever consumed). -/
structure ScanState where
  submission_dict : List (String × String)
  red_plagiarism : Finset String
  yellow_plagiarism : Finset String
  late_submission : Finset String
deriving DecidableEq

/-- Lines 209-212 of `clean.py`: all aggregates start empty. -/
def initState : ScanState := ⟨[], ∅, ∅, ∅⟩

/-- Python dict assignment `d[k] = v`: overwrite in place, else append. -/
def updateDict : List (String × String) → String → String → List (String × String)
  | [], k, v => [(k, v)]
  | (k', v') :: t, k, v =>
    if k' = k then (k, v) :: t else (k', v') :: updateDict t k v

/-- Lines 250-262, the body run for a row whose author `a` was extracted:
guard `author in student_list` (line 249), then the four conditional
updates.  The four branches of the Python body touch pairwise distinct
aggregates, so the sequential updates are recorded as one simultaneous
record update. -/
def procAuthor (c : ScanCtx) (r : Row) (a : String) (st : ScanState) : ScanState :=
  if a ∈ c.student_list then
    { submission_dict :=
        if a ∈ c.accepted then updateDict st.submission_dict a (pyStrip r.id)
        else st.submission_dict
      red_plagiarism :=
        if r.redFlag then insert a st.red_plagiarism else st.red_plagiarism
      yellow_plagiarism :=
        if r.yellowFlag then insert a st.yellow_plagiarism else st.yellow_plagiarism
      late_submission :=
        if c.endT < r.time ∧ a ∈ c.no_submission then insert a st.late_submission
        else st.late_submission }
  else st

/-- The effect of one row on the aggregates once the stop test has been
passed: skip `testcases-row` rows (line 232) and author-less rows
(line 247), otherwise run `procAuthor`. -/
def procRow (c : ScanCtx) (st : ScanState) (r : Row) : ScanState :=
  if r.testcases then st
  else
    match r.author with
    | none => st
    | some a => procAuthor c r a st

/-- The inner `for submission in submissions` loop (lines 231-262).  The
returned flag is the `loop` variable: `false` means a non-testcase row
with `submit_time < start_time` was reached, stopping the whole scan
(lines 241-243). -/
def scanRows (c : ScanCtx) : ScanState → List Row → ScanState × Bool
  | st, [] => (st, true)
  | st, r :: rs =>
    if r.testcases then scanRows c st rs
    else if r.time < c.startT then (st, false)
    else
      match r.author with
      | none => scanRows c st rs
      | some a => scanRows c (procAuthor c r a st) rs

/-- The outer `while loop` over feed pages (lines 218-262), given the
finite list of pages the server would serve. -/
def scanPages (c : ScanCtx) : ScanState → List (List Row) → ScanState
  | st, [] => st
  | st, p :: ps =>
    match scanRows c st p with
    | (st2, true) => scanPages c st2 ps
    | (st2, false) => st2

/-- The whole submission scan from the empty aggregates. -/
def runScan (c : ScanCtx) (pages : List (List Row)) : ScanState :=
  scanPages c initState pages

/-- The rows whose bodies the scan actually reaches: everything before
the first non-testcase row timestamped below `startT`. -/
def scannedRows (startT : Int) : List Row → List Row
  | [] => []
  | r :: rs =>
    if r.testcases then r :: scannedRows startT rs
    else if r.time < startT then []
    else r :: scannedRows startT rs

/-- The report's yellow line, `clean.py` line 286:
`sorted(yellow_plagiarism.difference(red_plagiarism))`. -/
def reportYellowLine (st : ScanState) : List String :=
  (st.yellow_plagiarism \ st.red_plagiarism).sort (· ≤ ·)

/-! ## Reconciler (`clean.py` lines 268-280)

`entries` is `os.listdir(SUBMISSION_DIR)` paired with `os.path.isdir`;
`submission_id_list` is `submission_dict.values()`; `author` is whatever
the variable `author` holds after the scan loop — line 278 appends that
leftover variable, not `id_`. -/

/-- Result of the reconciliation stage: names removed by `shutil.rmtree`,
the directory listing after removal, and the `missing_submission` list. -/
structure ReconcileResult where
  removed : List String
  remaining : List String
  missing_submission : List String
deriving DecidableEq, Repr

/-- Lines 268-280 (the empty-directory branch of line 270 reports a
warning and touches nothing). -/
def reconcile (entries : List (String × Bool)) (submission_id_list : List String)
    (author : String) : ReconcileResult :=
  if entries.isEmpty then ⟨[], [], []⟩
  else
    let removed := (entries.filter fun e => !(submission_id_list.contains e.1) && e.2).map Prod.fst
    let remaining := (entries.filter fun e => submission_id_list.contains e.1 || !e.2).map Prod.fst
    let missing := (submission_id_list.filter fun i => !(remaining.contains i)).map fun _ => author
    ⟨removed, remaining, missing⟩

/-! ## Raw-file fetcher (`get_file.py`)

`parse_url(args.link).path` is modelled by scanning past the first
`"://"` (when present) and taking the suffix from the first `/`;
the download target is built from `path.split("/")` exactly as lines
11-14 do: directory `parsed[1]`, file name `parsed[-1]`. -/

/-- Scan for the first `"://"` and return what follows it. -/
def findScheme : List Char → Option (List Char)
  | [] => none
  | x :: rest =>
    if x = ':' ∧ rest.take 2 = ['/', '/'] then some (rest.drop 2)
    else findScheme rest

/-- The suffix starting at the first `/`. -/
def pathFrom : List Char → List Char
  | [] => []
  | x :: rest => if x = '/' then x :: rest else pathFrom rest

/-- The value of `parse_url(link).path` for the URLs `get_file.py` receives. -/
def urlPathChars (link : String) : List Char :=
  pathFrom ((findScheme link.data).getD link.data)

/-- The path (relative to the working directory) that `get_file.py`
lines 11-14 write to: `submissions/parsed[1]/parsed[-1]` where
`parsed = path.split("/")`; `none` models the `IndexError` when the
split has fewer than two elements. -/
def getFileTarget (link : String) : Option String :=
  match splitOnChar '/' (urlPathChars link) with
  | _ :: p1 :: rest =>
    some ("submissions/" ++ String.mk p1 ++ "/"
      ++ String.mk (((p1 :: rest).getLast?).getD []))
  | _ => none

/-- Modelled from the spec claim's words: the target built from the
non-empty components of the URL path, directory = second such component,
file name = last such component. -/
def specFileTarget (link : String) : Option String :=
  match (splitOnChar '/' (urlPathChars link)).filter (fun p => !p.isEmpty) with
  | _ :: s1 :: rest =>
    some ("submissions/" ++ String.mk s1 ++ "/"
      ++ String.mk (((s1 :: rest).getLast?).getD []))
  | _ => none

/-- Here `joinPath segs` is the absolute-path spelling `/s1/s2/.../sn`
without the leading slash re-inserted by callers; used only to state
theorems about `getFileTarget`. -/
def joinPath (segs : List String) : String :=
  String.mk (unsplitChar '/' (segs.map String.data))

/-! ## Structural lemmas about the scan -/

theorem accepted_subset_student_list (c : ScanCtx) : c.accepted ⊆ c.student_list :=
  fun _ h => Finset.mem_union_left _ (Finset.mem_union_left _ h)

theorem no_submission_subset_student_list (c : ScanCtx) : c.no_submission ⊆ c.student_list :=
  fun _ h => Finset.mem_union_right _ h

theorem scanRows_eq_foldl (c : ScanCtx) :
    ∀ (rows : List Row) (st : ScanState),
      (scanRows c st rows).1 = (scannedRows c.startT rows).foldl (procRow c) st
  | [], st => rfl
  | r :: rs, st => by
    by_cases ht : r.testcases
    · simp [scanRows, scannedRows, ht, procRow, scanRows_eq_foldl c rs]
    · by_cases htime : r.time < c.startT
      · simp [scanRows, scannedRows, ht, htime]
      · cases ha : r.author with
        | none => simp [scanRows, scannedRows, ht, htime, ha, procRow, scanRows_eq_foldl c rs]
        | some a => simp [scanRows, scannedRows, ht, htime, ha, procRow, scanRows_eq_foldl c rs]

theorem scanRows_append (c : ScanCtx) :
    ∀ (xs ys : List Row) (st : ScanState),
      scanRows c st (xs ++ ys) =
        if (scanRows c st xs).2 = true then scanRows c (scanRows c st xs).1 ys
        else scanRows c st xs
  | [], ys, st => by simp [scanRows]
  | r :: rs, ys, st => by
    by_cases ht : r.testcases
    · simpa [scanRows, ht] using scanRows_append c rs ys st
    · by_cases htime : r.time < c.startT
      · simp [scanRows, ht, htime]
      · cases ha : r.author with
        | none => simpa [scanRows, ht, htime, ha] using scanRows_append c rs ys st
        | some a =>
          simpa [scanRows, ht, htime, ha] using scanRows_append c rs ys (procAuthor c r a st)

theorem scanPages_eq_flatten (c : ScanCtx) :
    ∀ (pages : List (List Row)) (st : ScanState),
      scanPages c st pages = (scanRows c st pages.flatten).1
  | [], st => rfl
  | p :: ps, st => by
    rw [show (p :: ps).flatten = p ++ ps.flatten from rfl, scanRows_append c p ps.flatten st]
    rcases h : scanRows c st p with ⟨st2, b⟩
    cases b
    · simp [scanPages, h]
    · simp [scanPages, h, scanPages_eq_flatten c ps]

theorem runScan_eq_foldl (c : ScanCtx) (pages : List (List Row)) :
    runScan c pages = (scannedRows c.startT pages.flatten).foldl (procRow c) initState := by
  rw [runScan, scanPages_eq_flatten, scanRows_eq_foldl]

theorem procAuthor_late (c : ScanCtx) (r : Row) (a : String) (st : ScanState) :
    (procAuthor c r a st).late_submission =
      if a ∈ c.student_list ∧ c.endT < r.time ∧ a ∈ c.no_submission
      then insert a st.late_submission else st.late_submission := by
  unfold procAuthor
  by_cases h : a ∈ c.student_list <;> by_cases h2 : c.endT < r.time ∧ a ∈ c.no_submission <;>
    simp [h, h2]

theorem procAuthor_red (c : ScanCtx) (r : Row) (a : String) (st : ScanState) :
    (procAuthor c r a st).red_plagiarism =
      if a ∈ c.student_list ∧ r.redFlag = true
      then insert a st.red_plagiarism else st.red_plagiarism := by
  unfold procAuthor
  by_cases h : a ∈ c.student_list <;> by_cases h2 : r.redFlag <;> simp [h, h2]

theorem procAuthor_yellow (c : ScanCtx) (r : Row) (a : String) (st : ScanState) :
    (procAuthor c r a st).yellow_plagiarism =
      if a ∈ c.student_list ∧ r.yellowFlag = true
      then insert a st.yellow_plagiarism else st.yellow_plagiarism := by
  unfold procAuthor
  by_cases h : a ∈ c.student_list <;> by_cases h2 : r.yellowFlag <;> simp [h, h2]

theorem procAuthor_dict (c : ScanCtx) (r : Row) (a : String) (st : ScanState) :
    (procAuthor c r a st).submission_dict =
      if a ∈ c.student_list ∧ a ∈ c.accepted
      then updateDict st.submission_dict a (pyStrip r.id) else st.submission_dict := by
  unfold procAuthor
  by_cases h : a ∈ c.student_list <;> by_cases h2 : a ∈ c.accepted <;> simp [h, h2]



theorem mem_updateDict {d : List (String × String)} {k v : String} {p : String × String} :
    p ∈ updateDict d k v → p ∈ d ∨ (p.1 = k ∧ p.2 = v) := by
  induction d with
  | nil =>
    simp only [updateDict, List.mem_singleton, List.not_mem_nil, false_or]
    rintro rfl
    exact ⟨rfl, rfl⟩
  | cons e t ih =>
    rcases e with ⟨k2, v2⟩
    by_cases h : k2 = k
    · simp only [updateDict, if_pos h, List.mem_cons]
      rintro (rfl | hp)
      · exact Or.inr ⟨rfl, rfl⟩
      · tauto
    · simp only [updateDict, if_neg h, List.mem_cons]
      rintro (rfl | hp)
      · tauto
      · rcases ih hp with h2 | h2 <;> tauto

theorem lookup_updateDict_self (d : List (String × String)) (k v : String) :
    List.lookup k (updateDict d k v) = some v := by
  induction d with
  | nil => simp [updateDict]
  | cons e t ih =>
    rcases e with ⟨k2, v2⟩
    by_cases h : k2 = k
    · subst h
      simp [updateDict]
    · have hb : (k == k2) = false := beq_eq_false_iff_ne.mpr (Ne.symm h)
      simp [updateDict, if_neg h, List.lookup, hb, ih]

theorem lookup_updateDict_ne (d : List (String × String)) (k v a : String) (h : a ≠ k) :
    List.lookup a (updateDict d k v) = List.lookup a d := by
  have hb : (a == k) = false := beq_eq_false_iff_ne.mpr h
  induction d with
  | nil => simp [updateDict, List.lookup, hb]
  | cons e t ih =>
    rcases e with ⟨k2, v2⟩
    by_cases h2 : k2 = k
    · subst h2
      simp [updateDict, List.lookup, hb]
    · by_cases h3 : a = k2
      · subst h3
        simp [updateDict, if_neg h2, List.lookup]
      · have hb3 : (a == k2) = false := beq_eq_false_iff_ne.mpr h3
        simp [updateDict, if_neg h2, List.lookup, hb3, ih]

theorem procRow_late_mem (c : ScanCtx) (st : ScanState) (r : Row) (a : String) :
    a ∈ (procRow c st r).late_submission ↔
      a ∈ st.late_submission ∨
        (r.testcases = false ∧ r.author = some a ∧ c.endT < r.time ∧ a ∈ c.no_submission) := by
  by_cases ht : r.testcases
  · simp [procRow, ht]
  · cases hau : r.author with
    | none => simp [procRow, ht, hau]
    | some b =>
      rw [procRow, if_neg ht, hau]
      rw [procAuthor_late]
      by_cases hab : a = b
      · subst hab
        by_cases hc : c.endT < r.time ∧ a ∈ c.no_submission
        · have hsl : a ∈ c.student_list := no_submission_subset_student_list c hc.2
          simp [hsl, hc, ht, hau]
        · rw [if_neg (by tauto)]
          simp only [ht, hau, Option.some.injEq]
          tauto
      · by_cases hcond : b ∈ c.student_list ∧ c.endT < r.time ∧ b ∈ c.no_submission
        · rw [if_pos hcond]
          simp only [Finset.mem_insert, hau, ht, Option.some.injEq]
          constructor
          · rintro (rfl | h)
            · exact absurd rfl hab
            · exact Or.inl h
          · rintro (h | ⟨h1, rfl, h3⟩)
            · exact Or.inr h
            · exact absurd rfl hab
        · rw [if_neg hcond]
          simp only [hau, ht, Option.some.injEq]
          constructor
          · exact Or.inl
          · rintro (h | ⟨h1, rfl, h3⟩)
            · exact h
            · exact absurd rfl hab

theorem procRow_red_mem (c : ScanCtx) (st : ScanState) (r : Row) (a : String) :
    a ∈ (procRow c st r).red_plagiarism ↔
      a ∈ st.red_plagiarism ∨
        (r.testcases = false ∧ r.author = some a ∧ r.redFlag = true ∧ a ∈ c.student_list) := by
  by_cases ht : r.testcases
  · simp [procRow, ht]
  · cases hau : r.author with
    | none => simp [procRow, ht, hau]
    | some b =>
      rw [procRow, if_neg ht, hau]
      rw [procAuthor_red]
      by_cases hab : a = b
      · subst hab
        by_cases hc : a ∈ c.student_list ∧ r.redFlag = true
        · simp [hc, ht, hau, hc.1, hc.2]
        · rw [if_neg hc]
          simp only [ht, hau, Option.some.injEq]
          tauto
      · by_cases hcond : b ∈ c.student_list ∧ r.redFlag = true
        · rw [if_pos hcond]
          simp only [Finset.mem_insert, hau, ht, Option.some.injEq]
          constructor
          · rintro (rfl | h)
            · exact absurd rfl hab
            · exact Or.inl h
          · rintro (h | ⟨-, rfl, -, -⟩)
            · exact Or.inr h
            · exact absurd rfl hab
        · rw [if_neg hcond]
          simp only [hau, ht, Option.some.injEq]
          constructor
          · exact Or.inl
          · rintro (h | ⟨-, rfl, -, -⟩)
            · exact h
            · exact absurd rfl hab

theorem procRow_yellow_mem (c : ScanCtx) (st : ScanState) (r : Row) (a : String) :
    a ∈ (procRow c st r).yellow_plagiarism ↔
      a ∈ st.yellow_plagiarism ∨
        (r.testcases = false ∧ r.author = some a ∧ r.yellowFlag = true ∧ a ∈ c.student_list) := by
  by_cases ht : r.testcases
  · simp [procRow, ht]
  · cases hau : r.author with
    | none => simp [procRow, ht, hau]
    | some b =>
      rw [procRow, if_neg ht, hau]
      rw [procAuthor_yellow]
      by_cases hab : a = b
      · subst hab
        by_cases hc : a ∈ c.student_list ∧ r.yellowFlag = true
        · simp [hc, ht, hau, hc.1, hc.2]
        · rw [if_neg hc]
          simp only [ht, hau, Option.some.injEq]
          tauto
      · by_cases hcond : b ∈ c.student_list ∧ r.yellowFlag = true
        · rw [if_pos hcond]
          simp only [Finset.mem_insert, hau, ht, Option.some.injEq]
          constructor
          · rintro (rfl | h)
            · exact absurd rfl hab
            · exact Or.inl h
          · rintro (h | ⟨-, rfl, -, -⟩)
            · exact Or.inr h
            · exact absurd rfl hab
        · rw [if_neg hcond]
          simp only [hau, ht, Option.some.injEq]
          constructor
          · exact Or.inl
          · rintro (h | ⟨-, rfl, -, -⟩)
            · exact h
            · exact absurd rfl hab

theorem foldl_late_mem (c : ScanCtx) :
    ∀ (rows : List Row) (st : ScanState) (a : String),
      a ∈ (rows.foldl (procRow c) st).late_submission ↔
        a ∈ st.late_submission ∨
          ∃ r ∈ rows, r.testcases = false ∧ r.author = some a ∧
            c.endT < r.time ∧ a ∈ c.no_submission
  | [], st, a => by simp
  | r :: rs, st, a => by
    rw [List.foldl_cons, foldl_late_mem c rs, procRow_late_mem]
    simp only [List.mem_cons, exists_eq_or_imp]
    tauto

theorem foldl_red_mem (c : ScanCtx) :
    ∀ (rows : List Row) (st : ScanState) (a : String),
      a ∈ (rows.foldl (procRow c) st).red_plagiarism ↔
        a ∈ st.red_plagiarism ∨
          ∃ r ∈ rows, r.testcases = false ∧ r.author = some a ∧
            r.redFlag = true ∧ a ∈ c.student_list
  | [], st, a => by simp
  | r :: rs, st, a => by
    rw [List.foldl_cons, foldl_red_mem c rs, procRow_red_mem]
    simp only [List.mem_cons, exists_eq_or_imp]
    tauto

theorem foldl_yellow_mem (c : ScanCtx) :
    ∀ (rows : List Row) (st : ScanState) (a : String),
      a ∈ (rows.foldl (procRow c) st).yellow_plagiarism ↔
        a ∈ st.yellow_plagiarism ∨
          ∃ r ∈ rows, r.testcases = false ∧ r.author = some a ∧
            r.yellowFlag = true ∧ a ∈ c.student_list
  | [], st, a => by simp
  | r :: rs, st, a => by
    rw [List.foldl_cons, foldl_yellow_mem c rs, procRow_yellow_mem]
    simp only [List.mem_cons, exists_eq_or_imp]
    tauto

theorem procRow_dict_mem (c : ScanCtx) (st : ScanState) (r : Row) (p : String × String) :
    p ∈ (procRow c st r).submission_dict →
      p ∈ st.submission_dict ∨
        (p.1 ∈ c.accepted ∧ r.testcases = false ∧ r.author = some p.1 ∧ p.2 = pyStrip r.id) := by
  by_cases ht : r.testcases
  · simp [procRow, ht]
  · cases hau : r.author with
    | none => simp [procRow, ht, hau]
    | some b =>
      rw [procRow, if_neg ht, hau, procAuthor_dict]
      by_cases hc : b ∈ c.student_list ∧ b ∈ c.accepted
      · rw [if_pos hc]
        intro hp
        rcases mem_updateDict hp with h | ⟨h1, h2⟩
        · exact Or.inl h
        · exact Or.inr ⟨by rw [h1]; exact hc.2, eq_false_of_ne_true ht, by simp [hau, h1], h2⟩
      · rw [if_neg hc]
        exact Or.inl

theorem foldl_dict_mem (c : ScanCtx) :
    ∀ (rows : List Row) (st : ScanState) (p : String × String),
      p ∈ (rows.foldl (procRow c) st).submission_dict →
        p ∈ st.submission_dict ∨
          (p.1 ∈ c.accepted ∧ ∃ r ∈ rows, r.testcases = false ∧ r.author = some p.1 ∧
            p.2 = pyStrip r.id)
  | [], st, p => by simp
  | r :: rs, st, p => by
    rw [List.foldl_cons]
    intro hp
    rcases foldl_dict_mem c rs (procRow c st r) p hp with h | ⟨h1, r2, h2, h3⟩
    · rcases procRow_dict_mem c st r p h with h4 | ⟨h4, h5, h6, h7⟩
      · exact Or.inl h4
      · exact Or.inr ⟨h4, r, List.mem_cons_self _ _, h5, h6, h7⟩
    · exact Or.inr ⟨h1, r2, List.mem_cons_of_mem _ h2, h3⟩

theorem foldl_lookup (c : ScanCtx) (a : String) (ha : a ∈ c.accepted) :
    ∀ (rows : List Row) (st : ScanState),
      List.lookup a (rows.foldl (procRow c) st).submission_dict =
        ((rows.filter fun r => decide (r.testcases = false ∧ r.author = some a)).getLast?).elim
          (List.lookup a st.submission_dict) (fun rl => some (pyStrip rl.id))
  | [], st => by simp
  | r :: rs, st => by
    rw [List.foldl_cons, foldl_lookup c a ha rs]
    by_cases hq : r.testcases = false ∧ r.author = some a
    · have hsl : a ∈ c.student_list := accepted_subset_student_list c ha
      have hdict : (procRow c st r).submission_dict =
          updateDict st.submission_dict a (pyStrip r.id) := by
        rw [procRow, if_neg (by simp [hq.1]), hq.2, procAuthor_dict, if_pos ⟨hsl, ha⟩]
      rw [List.filter_cons_of_pos (by simp [hq.1, hq.2])]
      cases hf : rs.filter (fun r => decide (r.testcases = false ∧ r.author = some a)) with
      | nil => simp [hf, hdict, lookup_updateDict_self]
      | cons x xs => simp [hf, hdict, List.getLast?_eq_getLast (x :: xs) (by simp)]
    · have hdict : List.lookup a (procRow c st r).submission_dict =
          List.lookup a st.submission_dict := by
        by_cases ht : r.testcases
        · rw [procRow, if_pos ht]
        · cases hau : r.author with
          | none => rw [procRow, if_neg ht, hau]
          | some b =>
            have hba : b ≠ a := by
              rintro rfl
              exact hq ⟨eq_false_of_ne_true ht, hau⟩
            rw [procRow, if_neg ht, hau, procAuthor_dict]
            by_cases hcb : b ∈ c.student_list ∧ b ∈ c.accepted
            · rw [if_pos hcb, lookup_updateDict_ne _ _ _ _ (Ne.symm hba)]
            · rw [if_neg hcb]
      rw [List.filter_cons_of_neg (by simpa using hq), hdict]

theorem scannedRows_sublist (t : Int) : ∀ l : List Row, (scannedRows t l).Sublist l
  | [] => List.Sublist.slnil
  | r :: rs => by
    by_cases ht : r.testcases
    · simp only [scannedRows, if_pos ht]
      exact List.Sublist.cons₂ r (scannedRows_sublist t rs)
    · by_cases htime : r.time < t
      · simp only [scannedRows, if_neg ht, if_pos htime]
        exact List.nil_sublist _
      · simp only [scannedRows, if_neg ht, if_neg htime]
        exact List.Sublist.cons₂ r (scannedRows_sublist t rs)

theorem mem_scannedRows_time (t : Int) :
    ∀ (l : List Row) (r : Row), r ∈ scannedRows t l → r.testcases = false → t ≤ r.time
  | [], r => by simp [scannedRows]
  | x :: xs, r => by
    by_cases ht : x.testcases
    · simp only [scannedRows, if_pos ht, List.mem_cons]
      rintro (rfl | h) hf
      · exact absurd hf (by simp [ht])
      · exact mem_scannedRows_time t xs r h hf
    · by_cases htime : x.time < t
      · simp [scannedRows, ht, htime]
      · simp only [scannedRows, if_neg ht, if_neg htime, List.mem_cons]
        rintro (rfl | h) hf
        · exact Int.not_lt.mp htime
        · exact mem_scannedRows_time t xs r h hf

theorem getLast?_time_min :
    ∀ (l : List Row), l.Pairwise (fun x y => y.time < x.time) →
      ∀ rl, l.getLast? = some rl → ∀ r ∈ l, rl.time ≤ r.time
  | [], _, rl, h => by simp at h
  | [x], _, rl, h => by
    simp only [List.getLast?_singleton, Option.some.injEq] at h
    subst h
    intro r hr
    rcases List.mem_singleton.mp hr with rfl
    exact le_refl _
  | x :: y :: tl, hp, rl, h => by
    rw [List.getLast?_cons_cons] at h
    intro r hr
    rcases List.mem_cons.mp hr with rfl | hr2
    · have hrl : rl ∈ y :: tl := List.mem_of_getLast?_eq_some h
      exact le_of_lt ((List.pairwise_cons.mp hp).1 rl hrl)
    · exact getLast?_time_min (y :: tl) (List.pairwise_cons.mp hp).2 rl h r hr2

theorem scanRows_stop (c : ScanCtx) (r : Row) (post : List Row)
    (hr : r.testcases = false) (hrt : r.time < c.startT) :
    ∀ (pre : List Row), (∀ x ∈ pre, x.testcases = false → c.startT ≤ x.time) →
      ∀ st, scanRows c st (pre ++ r :: post) = (pre.foldl (procRow c) st, false)
  | [], hpre, st => by
    simp [scanRows, hr, hrt]
  | x :: pre, hpre, st => by
    have hrec := scanRows_stop c r post hr hrt pre
      (fun z hz => hpre z (List.mem_cons_of_mem _ hz))
    by_cases ht : x.testcases
    · simpa [scanRows, ht, procRow] using hrec st
    · have hxt : c.startT ≤ x.time := hpre x (List.mem_cons_self _ _) (eq_false_of_ne_true ht)
      have hnl : ¬ x.time < c.startT := not_lt.mpr hxt
      cases hau : x.author with
      | none => simpa [scanRows, ht, hnl, hau, procRow] using hrec st
      | some a => simpa [scanRows, ht, hnl, hau, procRow] using hrec (procAuthor c x a st)

theorem classifyRows_invariant :
    ∀ (rows : List SRow) (a0 t0 n0 : Finset String),
      (rows.map SRow.username).Nodup →
      (∀ r ∈ rows, r.username ∉ a0 ∪ t0 ∪ n0) →
      Disjoint a0 t0 → Disjoint a0 n0 → Disjoint t0 n0 →
      ∀ a t n, classifyRows (a0, t0, n0) rows = some (a, t, n) →
        ((Disjoint a t ∧ Disjoint a n ∧ Disjoint t n) ∧
          a ∪ t ∪ n = rosterOf rows ∪ (a0 ∪ t0 ∪ n0))
  | [], a0, t0, n0, _, _, d1, d2, d3, a, t, n, h => by
    simp only [classifyRows, Option.some.injEq, Prod.mk.injEq] at h
    rcases h with ⟨rfl, rfl, rfl⟩
    simp [rosterOf, d1, d2, d3]
  | row :: rest, a0, t0, n0, hnodup, hfresh, d1, d2, d3, a, t, n, h => by
    simp only [List.map_cons, List.nodup_cons] at hnodup
    obtain ⟨hu, hnd⟩ := hnodup
    have hu0 : row.username ∉ a0 ∪ t0 ∪ n0 := hfresh row (List.mem_cons_self _ _)
    have hua : row.username ∉ a0 := fun hh => hu0 (by simp [hh])
    have hut : row.username ∉ t0 := fun hh => hu0 (by simp [hh])
    have hun : row.username ∉ n0 := fun hh => hu0 (by simp [hh])
    have step : ∀ (a2 t2 n2 : Finset String),
        Disjoint a2 t2 → Disjoint a2 n2 → Disjoint t2 n2 →
        a2 ∪ t2 ∪ n2 = insert row.username (a0 ∪ t0 ∪ n0) →
        classifyRows (a2, t2, n2) rest = some (a, t, n) →
        ((Disjoint a t ∧ Disjoint a n ∧ Disjoint t n) ∧
          a ∪ t ∪ n = rosterOf (row :: rest) ∪ (a0 ∪ t0 ∪ n0)) := by
      intro a2 t2 n2 e1 e2 e3 heq hrest
      have hfresh2 : ∀ r ∈ rest, r.username ∉ a2 ∪ t2 ∪ n2 := by
        intro r hr
        rw [heq]
        simp only [Finset.mem_insert]
        rintro (he | he)
        · exact hu (he ▸ List.mem_map_of_mem _ hr)
        · exact hfresh r (List.mem_cons_of_mem _ hr) he
      have hmain := classifyRows_invariant rest a2 t2 n2 hnd hfresh2 e1 e2 e3 a t n hrest
      refine ⟨hmain.1, ?_⟩
      rw [hmain.2, heq]
      have hros : rosterOf (row :: rest) = insert row.username (rosterOf rest) := rfl
      rw [hros]
      ext x
      simp only [Finset.mem_union, Finset.mem_insert]
      tauto
    cases hcls : row.solveClass with
    | none =>
      simp only [classifyRows, classifyRow, hcls] at h
      refine step a0 t0 (insert row.username n0) d1
        (Finset.disjoint_insert_right.mpr ⟨hua, d2⟩)
        (Finset.disjoint_insert_right.mpr ⟨hut, d3⟩) ?_ h
      ext x
      simp only [Finset.mem_union, Finset.mem_insert]
      tauto
    | some cls =>
      simp only [classifyRows, classifyRow, hcls] at h
      by_cases h1 : "attempted" ∈ cls
      · simp only [h1, if_pos] at h
        refine step a0 (insert row.username t0) n0
          (Finset.disjoint_insert_right.mpr ⟨hua, d1⟩) d2
          (Finset.disjoint_insert_left.mpr ⟨hun, d3⟩) ?_ h
        ext x
        simp only [Finset.mem_union, Finset.mem_insert]
        tauto
      · simp only [h1, if_neg, if_false] at h
        by_cases h2 : "solved" ∈ cls
        · simp only [h2, if_pos] at h
          refine step (insert row.username a0) t0 n0
            (Finset.disjoint_insert_left.mpr ⟨hut, d1⟩)
            (Finset.disjoint_insert_left.mpr ⟨hun, d2⟩) d3 ?_ h
          ext x
          simp only [Finset.mem_union, Finset.mem_insert]
          tauto
        · simp only [h2, if_neg, if_false] at h
          by_cases h3 : "first" ∈ cls
          · simp only [h3, if_pos] at h
            refine step (insert row.username a0) t0 n0
              (Finset.disjoint_insert_left.mpr ⟨hut, d1⟩)
              (Finset.disjoint_insert_left.mpr ⟨hun, d2⟩) d3 ?_ h
            ext x
            simp only [Finset.mem_union, Finset.mem_insert]
            tauto
          · simp only [h3, if_neg, if_false] at h
            exact absurd h (by simp)

theorem splitOnChar_ne_nil (c : Char) : ∀ l : List Char, splitOnChar c l ≠ []
  | [] => by simp [splitOnChar]
  | x :: xs => by
    cases hs : splitOnChar c xs with
    | nil => exact absurd hs (splitOnChar_ne_nil c xs)
    | cons p ps => by_cases hx : x = c <;> simp [splitOnChar, hs, hx]

theorem splitOnChar_length (c : Char) :
    ∀ l : List Char, (splitOnChar c l).length = l.count c + 1
  | [] => by simp [splitOnChar]
  | x :: xs => by
    have ih := splitOnChar_length c xs
    cases hs : splitOnChar c xs with
    | nil => exact absurd hs (splitOnChar_ne_nil c xs)
    | cons p ps =>
      rw [hs] at ih
      by_cases hx : x = c
      · have h2 : splitOnChar c (x :: xs) = [] :: p :: ps := by simp [splitOnChar, hs, hx]
        have hbx : (x == c) = true := by simp [hx]
        have hite : (if (x == c) = true then 1 else 0) = 1 := by rw [hbx]; simp
        rw [h2, List.length_cons, List.count_cons, hite]
        simp only [List.length_cons] at ih ⊢
        omega
      · have h2 : splitOnChar c (x :: xs) = (x :: p) :: ps := by simp [splitOnChar, hs, hx]
        have hbx : (x == c) = false := beq_eq_false_iff_ne.mpr hx
        have hite : (if (x == c) = true then 1 else 0) = 0 := by rw [hbx]; simp
        rw [h2, List.length_cons, List.count_cons, hite]
        simp only [List.length_cons] at ih ⊢
        omega

theorem unsplitChar_singleton (c : Char) (p : List Char) : unsplitChar c [p] = p := rfl

theorem unsplitChar_cons_cons (c : Char) (p q : List Char) (ps : List (List Char)) :
    unsplitChar c (p :: q :: ps) = p ++ c :: unsplitChar c (q :: ps) := rfl

theorem unsplit_split (c : Char) : ∀ l : List Char, unsplitChar c (splitOnChar c l) = l
  | [] => rfl
  | x :: xs => by
    have ih := unsplit_split c xs
    cases hs : splitOnChar c xs with
    | nil => exact absurd hs (splitOnChar_ne_nil c xs)
    | cons p ps =>
      rw [hs] at ih
      by_cases hx : x = c
      · have h2 : splitOnChar c (x :: xs) = [] :: p :: ps := by simp [splitOnChar, hs, hx]
        rw [h2, unsplitChar_cons_cons, List.nil_append, ih, hx]
      · have h2 : splitOnChar c (x :: xs) = (x :: p) :: ps := by simp [splitOnChar, hs, hx]
        rw [h2]
        cases ps with
        | nil =>
          rw [unsplitChar_singleton] at ih
          rw [unsplitChar_singleton, ih]
        | cons q ps2 =>
          rw [unsplitChar_cons_cons] at ih
          rw [unsplitChar_cons_cons, List.cons_append, ih]

theorem splitOnChar_of_not_mem (c : Char) :
    ∀ l : List Char, c ∉ l → splitOnChar c l = [l]
  | [] => by simp [splitOnChar]
  | x :: xs => by
    intro h
    have hx : x ≠ c := fun he => h (he ▸ List.mem_cons_self _ _)
    have ih := splitOnChar_of_not_mem c xs (fun hc => h (List.mem_cons_of_mem _ hc))
    simp [splitOnChar, ih, hx]

theorem splitOnChar_append (c : Char) :
    ∀ (p t : List Char), c ∉ p → splitOnChar c (p ++ c :: t) = p :: splitOnChar c t
  | [], t => by
    intro _
    cases hs : splitOnChar c t with
    | nil => exact absurd hs (splitOnChar_ne_nil c t)
    | cons q qs => simp [splitOnChar, hs]
  | x :: p, t => by
    intro h
    have hx : x ≠ c := fun he => h (he ▸ List.mem_cons_self _ _)
    have ih := splitOnChar_append c p t (fun hc => h (List.mem_cons_of_mem _ hc))
    simp [splitOnChar, ih, hx]

theorem splitOnChar_unsplit (c : Char) :
    ∀ parts : List (List Char), parts ≠ [] → (∀ p ∈ parts, c ∉ p) →
      splitOnChar c (unsplitChar c parts) = parts
  | [], h, _ => absurd rfl h
  | [p], _, hp => by
    rw [unsplitChar_singleton]
    exact splitOnChar_of_not_mem c p (hp p (by simp))
  | p :: q :: ps, _, hp => by
    rw [unsplitChar_cons_cons, splitOnChar_append c p _ (hp p (by simp))]
    rw [splitOnChar_unsplit c (q :: ps) (by simp) (fun z hz => hp z (List.mem_cons_of_mem _ hz))]

theorem parseField_digits {n : Nat} {cs : List Char} {v : Nat}
    (h : parseField n cs = some v) : cs.all Char.isDigit = true := by
  by_cases hc : cs ≠ [] ∧ cs.all Char.isDigit ∧ cs.length ≤ n
  · exact hc.2.1
  · rw [parseField, if_neg hc] at h
    exact absurd h (by simp)

theorem digits_count_colon {cs : List Char} (h : cs.all Char.isDigit = true) :
    cs.count ':' = 0 := by
  rw [List.count_eq_zero]
  intro hc
  have h2 := List.all_eq_true.mp h ':' hc
  exact absurd h2 (by decide)

theorem parseHM_count {cs : List Char} {v : Nat × Nat} (h : parseHM cs = some v) :
    cs.count ':' = 1 := by
  have hlen := splitOnChar_length ':' cs
  cases hs : splitOnChar ':' cs with
  | nil => exact absurd hs (splitOnChar_ne_nil _ _)
  | cons a l =>
    cases l with
    | nil => rw [parseHM, hs] at h; exact absurd h (by simp)
    | cons b l2 =>
      cases l2 with
      | nil =>
        rw [hs] at hlen
        simp only [List.length_cons, List.length_nil] at hlen
        omega
      | cons d l3 => rw [parseHM, hs] at h; exact absurd h (by simp)

theorem parseHMS_count {cs : List Char} {v : Nat × Nat × Nat} (h : parseHMS cs = some v) :
    cs.count ':' = 2 := by
  have hlen := splitOnChar_length ':' cs
  cases hs : splitOnChar ':' cs with
  | nil => exact absurd hs (splitOnChar_ne_nil _ _)
  | cons a l =>
    cases l with
    | nil => rw [parseHMS, hs] at h; exact absurd h (by simp)
    | cons b l2 =>
      cases l2 with
      | nil => rw [parseHMS, hs] at h; exact absurd h (by simp)
      | cons d l3 =>
        cases l3 with
        | nil =>
          rw [hs] at hlen
          simp only [List.length_cons, List.length_nil] at hlen
          omega
        | cons e l4 => rw [parseHMS, hs] at h; exact absurd h (by simp)

theorem parseDate_count {cs : List Char} {v : Nat × Nat × Nat} (h : parseDate cs = some v) :
    cs.count ':' = 0 := by
  cases hs : splitOnChar '-' cs with
  | nil => exact absurd hs (splitOnChar_ne_nil _ _)
  | cons y l =>
    cases l with
    | nil => rw [parseDate, hs] at h; exact absurd h (by simp)
    | cons m l2 =>
      cases l2 with
      | nil => rw [parseDate, hs] at h; exact absurd h (by simp)
      | cons d l3 =>
        cases l3 with
        | cons e l4 => rw [parseDate, hs] at h; exact absurd h (by simp)
        | nil =>
          rw [parseDate, hs] at h
          simp only [Option.bind_eq_some, Option.bind_eq_bind] at h
          have hcs : cs = y ++ '-' :: (m ++ '-' :: d) := by
            have hb := unsplit_split '-' cs
            rw [hs, unsplitChar_cons_cons, unsplitChar_cons_cons, unsplitChar_singleton] at hb
            exact hb.symm
          obtain ⟨yv, hy, mv, hm, dv, hd, hrest⟩ := h
          have hy0 := digits_count_colon (parseField_digits hy)
          have hm0 := digits_count_colon (parseField_digits hm)
          have hd0 := digits_count_colon (parseField_digits hd)
          have hdash : (('-' : Char) == ':') = false := by decide
          rw [hcs, List.count_append, List.count_cons, List.count_append, List.count_cons,
            hy0, hm0, hd0, hdash]
          simp

theorem strptimeFullMinute_count {cs : List Char} {dt : PyDateTime}
    (h : strptimeFullMinute cs = some dt) : cs.count ':' = 1 := by
  cases hs : splitOnChar ' ' cs with
  | nil => exact absurd hs (splitOnChar_ne_nil _ _)
  | cons d l =>
    cases l with
    | nil => rw [strptimeFullMinute, hs] at h; exact absurd h (by simp)
    | cons t l2 =>
      cases l2 with
      | cons e l3 => rw [strptimeFullMinute, hs] at h; exact absurd h (by simp)
      | nil =>
        rw [strptimeFullMinute, hs] at h
        simp only [Option.bind_eq_some, Option.bind_eq_bind] at h
        obtain ⟨⟨yv, mv, dv⟩, hdate, ⟨hv, miv⟩, htime, _⟩ := h
        have hcs : cs = d ++ ' ' :: t := by
          have hb := unsplit_split ' ' cs
          rw [hs, unsplitChar_cons_cons, unsplitChar_singleton] at hb
          exact hb.symm
        have hd0 := parseDate_count hdate
        have ht1 := parseHM_count htime
        have hsp : ((' ' : Char) == ':') = false := by decide
        rw [hcs, List.count_append, List.count_cons, hd0, ht1, hsp]
        simp

theorem strptimeFullSecond_count {cs : List Char} {dt : PyDateTime}
    (h : strptimeFullSecond cs = some dt) : cs.count ':' = 2 := by
  cases hs : splitOnChar ' ' cs with
  | nil => exact absurd hs (splitOnChar_ne_nil _ _)
  | cons d l =>
    cases l with
    | nil => rw [strptimeFullSecond, hs] at h; exact absurd h (by simp)
    | cons t l2 =>
      cases l2 with
      | cons e l3 => rw [strptimeFullSecond, hs] at h; exact absurd h (by simp)
      | nil =>
        rw [strptimeFullSecond, hs] at h
        simp only [Option.bind_eq_some, Option.bind_eq_bind] at h
        obtain ⟨⟨yv, mv, dv⟩, hdate, ⟨hv, miv, sv⟩, htime, _⟩ := h
        have hcs : cs = d ++ ' ' :: t := by
          have hb := unsplit_split ' ' cs
          rw [hs, unsplitChar_cons_cons, unsplitChar_singleton] at hb
          exact hb.symm
        have hd0 := parseDate_count hdate
        have ht2 := parseHMS_count htime
        have hsp : ((' ' : Char) == ':') = false := by decide
        rw [hcs, List.count_append, List.count_cons, hd0, ht2, hsp]
        simp

theorem contestTimeParse_count {td : Nat × Nat × Nat} {s : String} {dt : PyDateTime}
    (h : contestTimeParse td s = some dt) : s.data.count ':' = 1 := by
  rw [contestTimeParse] at h
  cases hf : strptimeFullMinute s.data with
  | some dt2 => exact strptimeFullMinute_count hf
  | none =>
    rw [hf] at h
    cases hb : parseHM s.data with
    | some p => exact parseHM_count hb
    | none => rw [hb] at h; exact absurd h (by simp)

theorem submitTimeParse_count {td : Nat × Nat × Nat} {s : String} {dt : PyDateTime}
    (h : submitTimeParse td s = some dt) : s.data.count ':' = 2 := by
  rw [submitTimeParse] at h
  cases hf : strptimeFullSecond s.data with
  | some dt2 => exact strptimeFullSecond_count hf
  | none =>
    rw [hf] at h
    cases hb : parseHMS s.data with
    | some p => exact parseHMS_count hb
    | none => rw [hb] at h; exact absurd h (by simp)

theorem findScheme_https (t : List Char) :
    findScheme ('h' :: 't' :: 't' :: 'p' :: 's' :: ':' :: '/' :: '/' :: t) = some t := by
  rw [findScheme, if_neg (fun hand => absurd hand.1 (by decide))]
  rw [findScheme, if_neg (fun hand => absurd hand.1 (by decide))]
  rw [findScheme, if_neg (fun hand => absurd hand.1 (by decide))]
  rw [findScheme, if_neg (fun hand => absurd hand.1 (by decide))]
  rw [findScheme, if_neg (fun hand => absurd hand.1 (by decide))]
  rw [findScheme, if_pos ⟨rfl, rfl⟩]
  rfl

theorem pathFrom_append (t : List Char) :
    ∀ (p : List Char), '/' ∉ p → pathFrom (p ++ '/' :: t) = '/' :: t
  | [], _ => by rw [List.nil_append, pathFrom, if_pos rfl]
  | x :: p, h => by
    have hx : x ≠ '/' := fun he => h (he ▸ List.mem_cons_self _ _)
    rw [List.cons_append, pathFrom, if_neg hx]
    exact pathFrom_append t p (fun hc => h (List.mem_cons_of_mem _ hc))

theorem splitOnChar_cons_self (c : Char) (l : List Char) :
    splitOnChar c (c :: l) = [] :: splitOnChar c l := by
  cases hq : splitOnChar c l with
  | nil => exact absurd hq (splitOnChar_ne_nil _ _)
  | cons p ps => simp [splitOnChar, hq]

/-! ## Claim theorems -/

/-- Claim C1 (amended): for every standings table whose student rows carry
pairwise distinct usernames, the three primary classification sets
`accepted`, `attempted`, `no_submission` produced by the standings
classification loop are pairwise disjoint and their union is the full set
of usernames read from the student rows.  (The distinctness hypothesis is
forced by `standings_partition_cex`: on a table listing the same username
twice with different markers the code puts it in two sets.) -/
theorem standings_partition (rows : List SRow) (acc att nos : Finset String)
    (hnodup : (rows.map SRow.username).Nodup)
    (h : classifyRows (∅, ∅, ∅) rows = some (acc, att, nos)) :
    (Disjoint acc att ∧ Disjoint acc nos ∧ Disjoint att nos) ∧
      acc ∪ att ∪ nos = rosterOf rows := by
  have hmain := classifyRows_invariant rows ∅ ∅ ∅ hnodup (by simp)
    (by simp) (by simp) (by simp) acc att nos h
  exact ⟨hmain.1, by simpa using hmain.2⟩

/-- Witness for C1: a three-row table with distinct usernames. -/
theorem standings_partition_witness :
    (Disjoint ({"ann"} : Finset String) ({"bob"} : Finset String) ∧
      Disjoint ({"ann"} : Finset String) ({"cy"} : Finset String) ∧
      Disjoint ({"bob"} : Finset String) ({"cy"} : Finset String)) ∧
    ({"ann"} : Finset String) ∪ {"bob"} ∪ {"cy"} =
      rosterOf [⟨"ann", some ["solved"]⟩, ⟨"bob", some ["attempted"]⟩, ⟨"cy", none⟩] :=
  standings_partition
    [⟨"ann", some ["solved"]⟩, ⟨"bob", some ["attempted"]⟩, ⟨"cy", none⟩]
    {"ann"} {"bob"} {"cy"} (by decide) (by decide)

/-- Counterexample to C1 as stated: a standings table repeating the
username `alice` with a `solved` cell and then a class-less cell puts
`alice` into both `accepted` and `no_submission`, so the three sets are
not pairwise disjoint for every processed table. -/
theorem standings_partition_cex :
    classifyRows (∅, ∅, ∅) [⟨"alice", some ["solved"]⟩, ⟨"alice", none⟩]
        = some ({"alice"}, ∅, {"alice"}) ∧
    ¬ Disjoint ({"alice"} : Finset String) ({"alice"} : Finset String) := by
  refine ⟨by decide, Finset.not_disjoint_iff.mpr ⟨"alice", by simp, by simp⟩⟩

/-- Claim C2: when the concatenated feed splits as `pre ++ r :: post`
with every (non-testcase) row of `pre` timestamped at or after
`start_time` and `r` a submission row timestamped strictly before
`start_time`, the scan stops exactly at `r`: the final state is the fold
of the row bodies over `pre` alone, so neither `r`'s remaining fields nor
any later row on any page contributes to `accepted_map`,
`late_submission`, `red_plagiarism` or `yellow_plagiarism`. -/
theorem scan_stops_at_first_old_row (c : ScanCtx) (st : ScanState)
    (pages : List (List Row)) (pre post : List Row) (r : Row)
    (hsplit : pages.flatten = pre ++ r :: post)
    (hpre : ∀ x ∈ pre, x.testcases = false → c.startT ≤ x.time)
    (hr : r.testcases = false) (hrt : r.time < c.startT) :
    scanPages c st pages = pre.foldl (procRow c) st := by
  rw [scanPages_eq_flatten, hsplit, scanRows_stop c r post hr hrt pre hpre st]

/-- Witness for C2: a two-page feed crossing `start_time = 10` at its
second row; the row after the crossing row is ignored entirely. -/
theorem scan_stops_at_first_old_row_witness :
    scanPages ⟨10, 20, {"a"}, ∅, ∅⟩ initState
        [[⟨false, "11", 15, some "a", "AC", false, false⟩],
         [⟨false, "10", 5, some "b", "AC", false, false⟩,
          ⟨false, "9", 4, some "z", "AC", true, true⟩]]
      = [(⟨false, "11", 15, some "a", "AC", false, false⟩ : Row)].foldl
          (procRow ⟨10, 20, {"a"}, ∅, ∅⟩) initState :=
  scan_stops_at_first_old_row ⟨10, 20, {"a"}, ∅, ∅⟩ initState
    [[⟨false, "11", 15, some "a", "AC", false, false⟩],
     [⟨false, "10", 5, some "b", "AC", false, false⟩,
      ⟨false, "9", 4, some "z", "AC", true, true⟩]]
    [⟨false, "11", 15, some "a", "AC", false, false⟩]
    [⟨false, "9", 4, some "z", "AC", true, true⟩]
    ⟨false, "10", 5, some "b", "AC", false, false⟩
    rfl (by decide) rfl (by decide)

/-- Claim C3: after the scan, a username is in `late_submission` exactly
when some reached submission row has that author, a timestamp strictly
after `end_time`, and the author in `no_submission`; in particular
`late_submission ⊆ no_submission`. -/
theorem late_submission_characterization (c : ScanCtx) (pages : List (List Row)) (a : String) :
    (a ∈ (runScan c pages).late_submission ↔
      ∃ r ∈ scannedRows c.startT pages.flatten,
        r.testcases = false ∧ r.author = some a ∧ c.endT < r.time ∧ a ∈ c.no_submission) ∧
    (runScan c pages).late_submission ⊆ c.no_submission := by
  have hiff : ∀ x : String, x ∈ (runScan c pages).late_submission ↔
      ∃ r ∈ scannedRows c.startT pages.flatten,
        r.testcases = false ∧ r.author = some x ∧ c.endT < r.time ∧ x ∈ c.no_submission := by
    intro x
    rw [runScan_eq_foldl, foldl_late_mem]
    simp [initState]
  refine ⟨hiff a, fun x hx => ?_⟩
  rcases (hiff x).mp hx with ⟨r, _, _, _, _, hmem⟩
  exact hmem

/-- Witness for C3: a lone row after `end_time` by a `no_submission`
author makes that author late. -/
theorem late_submission_characterization_witness :
    ("z" ∈ (runScan ⟨0, 10, ∅, ∅, {"z"}⟩
        [[⟨false, "5", 12, some "z", "AC", false, false⟩]]).late_submission ↔
      ∃ r ∈ scannedRows 0
          [[(⟨false, "5", 12, some "z", "AC", false, false⟩ : Row)]].flatten,
        r.testcases = false ∧ r.author = some "z" ∧ (10 : Int) < r.time ∧
          "z" ∈ ({"z"} : Finset String)) ∧
    (runScan ⟨0, 10, ∅, ∅, {"z"}⟩
        [[⟨false, "5", 12, some "z", "AC", false, false⟩]]).late_submission ⊆
      ({"z"} : Finset String) :=
  late_submission_characterization ⟨0, 10, ∅, ∅, {"z"}⟩
    [[⟨false, "5", 12, some "z", "AC", false, false⟩]] "z"

/-- Claim C4 (amended): every key of the final `accepted_map`
(`submission_dict`) is a username in the `accepted` set, and every value
is the stripped `data-submission-id` of a reached feed row authored by
that username.  The row's own status is never consulted — the `status=AC`
filter is only a request parameter — so, as `accepted_map_entries_cex`
shows, a non-accepted row in the feed contributes an entry too. -/
theorem accepted_map_entries (c : ScanCtx) (pages : List (List Row)) (a i : String)
    (h : (a, i) ∈ (runScan c pages).submission_dict) :
    a ∈ c.accepted ∧ ∃ r ∈ scannedRows c.startT pages.flatten,
      r.testcases = false ∧ r.author = some a ∧ i = pyStrip r.id := by
  rw [runScan_eq_foldl] at h
  rcases foldl_dict_mem c _ initState (a, i) h with h2 | ⟨h1, r, hr, h3, h4, h5⟩
  · simp [initState] at h2
  · exact ⟨h1, r, hr, h3, h4, h5⟩

/-- Witness for C4: the single entry of a one-row run. -/
theorem accepted_map_entries_witness :
    "a" ∈ ({"a"} : Finset String) ∧
    ∃ r ∈ scannedRows 0
        [[(⟨false, " 7 ", 5, some "a", "AC", false, false⟩ : Row)]].flatten,
      r.testcases = false ∧ r.author = some "a" ∧ "7" = pyStrip r.id :=
  accepted_map_entries ⟨0, 20, {"a"}, ∅, ∅⟩
    [[⟨false, " 7 ", 5, some "a", "AC", false, false⟩]] "a" "7" (by decide)

/-- Counterexample to C4 as stated: a feed whose only row has status
`Wrong Answer` still yields an `accepted_map` entry for its
accepted-set author, so it is false that every entry comes from a row
whose submission status is accepted. -/
theorem accepted_map_entries_cex :
    ¬ ∀ p ∈ (runScan ⟨0, 20, {"alice"}, ∅, ∅⟩
        [[⟨false, "77", 10, some "alice", "Wrong Answer", false, false⟩]]).submission_dict,
      ∃ r ∈ ([[⟨false, "77", 10, some "alice", "Wrong Answer", false, false⟩]] :
          List (List Row)).flatten,
        r.author = some p.1 ∧ pyStrip r.id = p.2 ∧ r.status = "Accepted" := by
  decide

/-- Claim C5: for an accepted-set author with at least one reached
in-window submission row, the final `accepted_map` entry is the id
written by the last update of the newest-first scan — the last matching
row in scan order — and under strictly decreasing feed timestamps that
row is the oldest one by that author the scan reaches, and it lies inside
the contest window. -/
theorem accepted_map_last_write (c : ScanCtx) (pages : List (List Row)) (a : String)
    (ha : a ∈ c.accepted)
    (hdec : pages.flatten.Pairwise fun x y => y.time < x.time)
    (hwin : ∃ r ∈ (scannedRows c.startT pages.flatten).filter
        (fun r => decide (r.testcases = false ∧ r.author = some a)), r.time ≤ c.endT) :
    ∃ rl, ((scannedRows c.startT pages.flatten).filter
        (fun r => decide (r.testcases = false ∧ r.author = some a))).getLast? = some rl ∧
      List.lookup a (runScan c pages).submission_dict = some (pyStrip rl.id) ∧
      (∀ r ∈ (scannedRows c.startT pages.flatten).filter
        (fun r => decide (r.testcases = false ∧ r.author = some a)), rl.time ≤ r.time) ∧
      c.startT ≤ rl.time ∧ rl.time ≤ c.endT := by
  obtain ⟨rw0, hrw0, hrwend⟩ := hwin
  have hne : (scannedRows c.startT pages.flatten).filter
      (fun r => decide (r.testcases = false ∧ r.author = some a)) ≠ [] := by
    intro he
    rw [he] at hrw0
    exact List.not_mem_nil _ hrw0
  obtain ⟨rl, hrl⟩ : ∃ rl, ((scannedRows c.startT pages.flatten).filter
      (fun r => decide (r.testcases = false ∧ r.author = some a))).getLast? = some rl :=
    ⟨_, List.getLast?_eq_getLast _ hne⟩
  have hsub : ((scannedRows c.startT pages.flatten).filter
      (fun r => decide (r.testcases = false ∧ r.author = some a))).Sublist pages.flatten :=
    (List.filter_sublist _).trans (scannedRows_sublist c.startT _)
  have hpairflt := hdec.sublist hsub
  have hmin := getLast?_time_min _ hpairflt rl hrl
  have hlook : List.lookup a (runScan c pages).submission_dict = some (pyStrip rl.id) := by
    rw [runScan_eq_foldl, foldl_lookup c a ha, hrl]
    rfl
  have hrlmem := List.mem_of_getLast?_eq_some hrl
  have hrlprops : rl.testcases = false ∧ rl.author = some a := by
    have h2 := List.mem_filter.mp hrlmem
    simpa using h2.2
  have hstart : c.startT ≤ rl.time :=
    mem_scannedRows_time c.startT _ rl (List.mem_of_mem_filter hrlmem) hrlprops.1
  exact ⟨rl, hrl, hlook, hmin, hstart, le_trans (hmin rw0 hrw0) hrwend⟩

/-- Witness for C5: two in-window rows by the same accepted author; the
entry is the id of the older (last-scanned) one. -/
theorem accepted_map_last_write_witness :
    ∃ rl, ((scannedRows 0
        [[(⟨false, "5", 9, some "a", "AC", false, false⟩ : Row),
          ⟨false, "4", 3, some "a", "AC", false, false⟩]].flatten).filter
        (fun r => decide (r.testcases = false ∧ r.author = some "a"))).getLast? = some rl ∧
      List.lookup "a" (runScan ⟨0, 10, {"a"}, ∅, ∅⟩
        [[⟨false, "5", 9, some "a", "AC", false, false⟩,
          ⟨false, "4", 3, some "a", "AC", false, false⟩]]).submission_dict
        = some (pyStrip rl.id) ∧
      (∀ r ∈ ((scannedRows 0
        [[(⟨false, "5", 9, some "a", "AC", false, false⟩ : Row),
          ⟨false, "4", 3, some "a", "AC", false, false⟩]].flatten).filter
        (fun r => decide (r.testcases = false ∧ r.author = some "a"))), rl.time ≤ r.time) ∧
      (0 : Int) ≤ rl.time ∧ rl.time ≤ (10 : Int) :=
  accepted_map_last_write ⟨0, 10, {"a"}, ∅, ∅⟩
    [[⟨false, "5", 9, some "a", "AC", false, false⟩,
      ⟨false, "4", 3, some "a", "AC", false, false⟩]] "a"
    (by decide) (by decide) (by decide)

/-- Claim C6: a reached roster-author row carrying both plagiarism
markers puts the author into both `red_plagiarism` and
`yellow_plagiarism`; the report's yellow line is the sorted set
difference `yellow_plagiarism \ red_plagiarism` — its members are exactly
the yellow-flagged usernames not red-flagged, it is sorted, and no
username of `red_plagiarism` appears on it. -/
theorem plagiarism_flags_and_yellow_line (c : ScanCtx) (pages : List (List Row))
    (r : Row) (a : String)
    (hr : r ∈ scannedRows c.startT pages.flatten) (ht : r.testcases = false)
    (hau : r.author = some a) (hsl : a ∈ c.student_list)
    (hred : r.redFlag = true) (hyel : r.yellowFlag = true) :
    (a ∈ (runScan c pages).red_plagiarism ∧ a ∈ (runScan c pages).yellow_plagiarism) ∧
    (∀ x, x ∈ reportYellowLine (runScan c pages) ↔
      x ∈ (runScan c pages).yellow_plagiarism ∧ x ∉ (runScan c pages).red_plagiarism) ∧
    List.Sorted (· ≤ ·) (reportYellowLine (runScan c pages)) ∧
    ∀ x ∈ (runScan c pages).red_plagiarism, x ∉ reportYellowLine (runScan c pages) := by
  have hmemred : a ∈ (runScan c pages).red_plagiarism := by
    rw [runScan_eq_foldl]
    exact (foldl_red_mem c _ initState a).mpr (Or.inr ⟨r, hr, ht, hau, hred, hsl⟩)
  have hmemyel : a ∈ (runScan c pages).yellow_plagiarism := by
    rw [runScan_eq_foldl]
    exact (foldl_yellow_mem c _ initState a).mpr (Or.inr ⟨r, hr, ht, hau, hyel, hsl⟩)
  have hline : ∀ x, x ∈ reportYellowLine (runScan c pages) ↔
      x ∈ (runScan c pages).yellow_plagiarism ∧ x ∉ (runScan c pages).red_plagiarism := by
    intro x
    rw [reportYellowLine, Finset.mem_sort, Finset.mem_sdiff]
  refine ⟨⟨hmemred, hmemyel⟩, hline, Finset.sort_sorted _ _, ?_⟩
  intro x hx hxline
  exact ((hline x).mp hxline).2 hx

/-- Witness for C6: one row with both markers whose author is on the
roster through `attempted`. -/
theorem plagiarism_flags_and_yellow_line_witness :
    ("p" ∈ (runScan ⟨0, 10, ∅, {"p"}, ∅⟩
        [[⟨false, "3", 5, some "p", "AC", true, true⟩]]).red_plagiarism ∧
      "p" ∈ (runScan ⟨0, 10, ∅, {"p"}, ∅⟩
        [[⟨false, "3", 5, some "p", "AC", true, true⟩]]).yellow_plagiarism) ∧
    (∀ x, x ∈ reportYellowLine (runScan ⟨0, 10, ∅, {"p"}, ∅⟩
        [[⟨false, "3", 5, some "p", "AC", true, true⟩]]) ↔
      x ∈ (runScan ⟨0, 10, ∅, {"p"}, ∅⟩
        [[⟨false, "3", 5, some "p", "AC", true, true⟩]]).yellow_plagiarism ∧
      x ∉ (runScan ⟨0, 10, ∅, {"p"}, ∅⟩
        [[⟨false, "3", 5, some "p", "AC", true, true⟩]]).red_plagiarism) ∧
    List.Sorted (· ≤ ·) (reportYellowLine (runScan ⟨0, 10, ∅, {"p"}, ∅⟩
        [[⟨false, "3", 5, some "p", "AC", true, true⟩]])) ∧
    ∀ x ∈ (runScan ⟨0, 10, ∅, {"p"}, ∅⟩
        [[⟨false, "3", 5, some "p", "AC", true, true⟩]]).red_plagiarism,
      x ∉ reportYellowLine (runScan ⟨0, 10, ∅, {"p"}, ∅⟩
        [[⟨false, "3", 5, some "p", "AC", true, true⟩]]) :=
  plagiarism_flags_and_yellow_line ⟨0, 10, ∅, {"p"}, ∅⟩
    [[⟨false, "3", 5, some "p", "AC", true, true⟩]]
    ⟨false, "3", 5, some "p", "AC", true, true⟩ "p"
    (by decide) rfl rfl (by decide) rfl rfl

/-- Claim C7: the reconciler removes exactly the stale directories, but
line 278 of `clean.py` appends the leftover scan variable `author`
instead of the missing id: on local directories `1`, `2`, `3` with
accepted ids `2`, `4` (and residual author `alice`) it removes `1` and
`3`, keeps `2`, and reports `["alice"]` — not the missing id `["4"]`. -/
theorem reconcile_missing_bug :
    reconcile [("1", true), ("2", true), ("3", true)] ["2", "4"] "alice"
        = ⟨["1", "3"], ["2"], ["alice"]⟩ ∧
    (reconcile [("1", true), ("2", true), ("3", true)] ["2", "4"] "alice").missing_submission
        ≠ ["4"] := by
  decide

/-- Counterexample to C8 as stated: the contest parser uses minute
precision (`%Y-%m-%d %H:%M` / `%H:%M`), not the seconds formats of the
submission parser, so the two parsers disagree on `"14:30:00"` and on
`"2024-01-05 14:30:00"`. -/
theorem contest_submit_fallback_cex :
    contestTimeParse (2026, 10, 12) "14:30:00" = none ∧
    submitTimeParse (2026, 10, 12) "14:30:00" = some ⟨2026, 10, 12, 14, 30, 0⟩ ∧
    contestTimeParse (2026, 10, 12) "2024-01-05 14:30:00" = none ∧
    submitTimeParse (2026, 10, 12) "2024-01-05 14:30:00" = some ⟨2024, 1, 5, 14, 30, 0⟩ := by
  decide

/-- Claim C8 (amended): contest start/end times are parsed with a
two-format fallback of the same shape as the submission rows but at
minute precision — full `YYYY-MM-DD HH:MM` first, else bare `HH:MM`
combined with today's date — whereas §4.1 uses the seconds formats; a
string accepted by the minute-precision parser has exactly one colon and
a string accepted by the seconds parser has two, so the two parsers never
both succeed on the same input (they agree only on inputs both
reject). -/
theorem contest_submit_formats_disjoint (td : Nat × Nat × Nat) (s : String) :
    contestTimeParse td s = none ∨ submitTimeParse td s = none := by
  by_cases h1 : contestTimeParse td s = none
  · exact Or.inl h1
  · obtain ⟨dt, hdt⟩ := Option.ne_none_iff_exists'.mp h1
    right
    cases h2 : submitTimeParse td s with
    | none => rfl
    | some dt2 =>
      have hc1 := contestTimeParse_count hdt
      have hc2 := submitTimeParse_count h2
      omega

/-- Witness for C8: the disjointness at a bare-minute input. -/
theorem contest_submit_formats_disjoint_witness :
    contestTimeParse (2026, 10, 12) "09:15" = none ∨
      submitTimeParse (2026, 10, 12) "09:15" = none :=
  contest_submit_formats_disjoint (2026, 10, 12) "09:15"

/-- Claim C10: after the scan, `red_plagiarism` and `yellow_plagiarism`
contain only usernames of the combined roster
`accepted ∪ attempted ∪ no_submission`; rows with no extractable author
or an off-roster author never add to either set. -/
theorem plagiarism_sets_within_roster (c : ScanCtx) (pages : List (List Row)) :
    (runScan c pages).red_plagiarism ⊆ c.accepted ∪ c.attempted ∪ c.no_submission ∧
    (runScan c pages).yellow_plagiarism ⊆ c.accepted ∪ c.attempted ∪ c.no_submission := by
  constructor
  · intro x hx
    rw [runScan_eq_foldl] at hx
    rcases (foldl_red_mem c _ initState x).mp hx with h | ⟨r, _, _, _, _, hsl⟩
    · simp [initState] at h
    · exact hsl
  · intro x hx
    rw [runScan_eq_foldl] at hx
    rcases (foldl_yellow_mem c _ initState x).mp hx with h | ⟨r, _, _, _, _, hsl⟩
    · simp [initState] at h
    · exact hsl

/-- Witness for C10: a run whose feed carries a flagged off-roster
author and a flagged author-less row keeps both sets inside the
roster. -/
theorem plagiarism_sets_within_roster_witness :
    (runScan ⟨0, 10, {"a"}, ∅, ∅⟩
        [[⟨false, "1", 7, some "ghost", "AC", true, true⟩,
          ⟨false, "2", 6, none, "AC", true, true⟩,
          ⟨false, "3", 5, some "a", "AC", true, false⟩]]).red_plagiarism ⊆
      ({"a"} : Finset String) ∪ ∅ ∪ ∅ ∧
    (runScan ⟨0, 10, {"a"}, ∅, ∅⟩
        [[⟨false, "1", 7, some "ghost", "AC", true, true⟩,
          ⟨false, "2", 6, none, "AC", true, true⟩,
          ⟨false, "3", 5, some "a", "AC", true, false⟩]]).yellow_plagiarism ⊆
      ({"a"} : Finset String) ∪ ∅ ∪ ∅ :=
  plagiarism_sets_within_roster ⟨0, 10, {"a"}, ∅, ∅⟩
    [[⟨false, "1", 7, some "ghost", "AC", true, true⟩,
      ⟨false, "2", 6, none, "AC", true, true⟩,
      ⟨false, "3", 5, some "a", "AC", true, false⟩]]

/-- Counterexample to C9 as stated: on `https://h/a/b/c` the script
writes to `submissions/a/c` — `parsed[1]` is the first non-empty path
component, not the second — while the claim's reading (second and last
non-empty components) would give `submissions/b/c`. -/
theorem get_file_target_cex :
    getFileTarget "https://h/a/b/c" = some "submissions/a/c" ∧
    specFileTarget "https://h/a/b/c" = some "submissions/b/c" ∧
    getFileTarget "https://h/a/b/c" ≠ specFileTarget "https://h/a/b/c" := by
  decide

/-- Claim C9 (amended): the second script writes to
`./submissions/<parsed[1]>/<parsed[-1]>` where `parsed` is the URL path
split on `/`; for a URL `https://<host>/<seg1>/…/<segn>` with slash-free
host and non-empty slash-free segments this is
`./submissions/<first segment>/<last segment>`. -/
theorem get_file_target_first_and_last (host : String) (segs : List String)
    (h1 : segs ≠ []) (h2 : ∀ sg ∈ segs, sg.data ≠ [] ∧ '/' ∉ sg.data)
    (h3 : '/' ∉ host.data) :
    getFileTarget ("https://" ++ host ++ "/" ++ joinPath segs)
      = some ("submissions/" ++ segs.head h1 ++ "/" ++ segs.getLast h1) := by
  have hdata : ("https://" ++ host ++ "/" ++ joinPath segs).data
      = 'h' :: 't' :: 't' :: 'p' :: 's' :: ':' :: '/' :: '/' ::
          (host.data ++ '/' :: unsplitChar '/' (segs.map String.data)) := by
    simp only [String.data_append,
      show ("https://" : String).data = ['h', 't', 't', 'p', 's', ':', '/', '/'] from rfl,
      show ("/" : String).data = ['/'] from rfl,
      show (joinPath segs).data = unsplitChar '/' (segs.map String.data) from rfl]
    simp [List.append_assoc]
  have hmapne : segs.map String.data ≠ [] := by
    cases segs with
    | nil => exact absurd rfl h1
    | cons s0 srest => simp
  have hnos : ∀ p ∈ segs.map String.data, '/' ∉ p := by
    intro p hp
    obtain ⟨sg, hsg, rfl⟩ := List.mem_map.mp hp
    exact (h2 sg hsg).2
  simp only [getFileTarget, urlPathChars]
  rw [hdata, findScheme_https, Option.getD_some, pathFrom_append _ host.data h3,
    splitOnChar_cons_self, splitOnChar_unsplit '/' _ hmapne hnos]
  cases segs with
  | nil => exact absurd rfl h1
  | cons s0 srest =>
    simp only [List.map_cons]
    have hlast : ((s0.data :: srest.map String.data).getLast?).getD []
        = ((s0 :: srest).getLast (List.cons_ne_nil s0 srest)).data := by
      have hm : (s0.data :: srest.map String.data) = (s0 :: srest).map String.data := by
        simp [List.map_cons]
      rw [hm, List.getLast?_map,
        List.getLast?_eq_getLast (s0 :: srest) (List.cons_ne_nil s0 srest)]
      rfl
    show some ("submissions/" ++ String.mk s0.data ++ "/"
        ++ String.mk (((s0.data :: srest.map String.data).getLast?).getD []))
      = some ("submissions/" ++ (s0 :: srest).head (List.cons_ne_nil s0 srest) ++ "/"
        ++ (s0 :: srest).getLast (List.cons_ne_nil s0 srest))
    rw [hlast]
    rfl

/-- Witness for C9: the target for `https://h/` + `a/b/c`. -/
theorem get_file_target_first_and_last_witness :
    getFileTarget ("https://" ++ "h" ++ "/" ++ joinPath ["a", "b", "c"])
      = some ("submissions/" ++ (["a", "b", "c"] : List String).head (by simp) ++ "/"
          ++ (["a", "b", "c"] : List String).getLast (by simp)) :=
  get_file_target_first_and_last "h" ["a", "b", "c"] (by simp) (by decide) (by decide)
